import Mathlib

/-!
Shallow embedding of the Cosmic Morphodynamics reaction-diffusion-advection
core (src/CMH.py).  A scalar field on the N x N periodic grid is a function
ZMod n -> ZMod n -> α (row index first, matching the numpy arrays); the
periodic index arithmetic of the source is the ring structure of ZMod n.
Field values live in a linearly ordered field: the computational claims are
settled at ℚ, and the parts of the source that use transcendental functions
(the rotation map and the Fourier spectrum) are embedded at ℝ.
-/

/-- A scalar field on the n x n periodic grid (a numpy array of shape (n, n)),
indexed (row, column). -/
abbrev Grid (n : ℕ) (α : Type) : Type := ZMod n → ZMod n → α

/-- numpy.roll along axis 0 by shift s: the value of rollRow s z at (i, j) is
z ((i - s) mod n) j. -/
def rollRow {n : ℕ} {α : Type} (s : ℤ) (z : Grid n α) : Grid n α :=
  fun i j => z (i - (s : ZMod n)) j

/-- numpy.roll along axis 1 by shift s. -/
def rollCol {n : ℕ} {α : Type} (s : ℤ) (z : Grid n α) : Grid n α :=
  fun i j => z i (j - (s : ZMod n))

/-- Source function laplacian (src/CMH.py lines 54-64): the five-point
periodic Laplacian, written as the source writes it - the sum of the four
axis rolls minus 4 z. -/
def laplacian {n : ℕ} {α : Type} [LinearOrderedField α] (z : Grid n α) :
    Grid n α :=
  fun i j =>
    rollRow 1 z i j + rollRow (-1) z i j + rollCol 1 z i j + rollCol (-1) z i j
      - 4 * z i j

/-- The simulation parameter record (the module-level constants DT, DIFF_G,
DIFF_R, FEED, KILL, ETA of src/CMH.py lines 32-43, made explicit). -/
structure Params (α : Type) where
  dt : α
  diffG : α
  diffR : α
  feed : α
  kill : α
  eta : α

/-- Grid resolution N = 200 (src/CMH.py line 29). -/
def N : ℕ := 200

/-- STEPS_PER_FRAME = 8 (src/CMH.py line 47). -/
def STEPS_PER_FRAME : ℕ := 8

/-- The default parameter values of src/CMH.py lines 32-43:
DT = 1.0, DIFF_G = 0.16, DIFF_R = 0.08, FEED = 0.040, KILL = 0.060,
ETA = 1.0, as exact rationals. -/
def defaultParams : Params ℚ :=
  ⟨1, 16 / 100, 8 / 100, 40 / 1000, 60 / 1000, 1⟩

/-- One iteration of the inner physics loop of update (src/CMH.py lines
187-199), in the source's statement order: lap_g, lap_r, gr2, delta_g and
delta_r are all computed from the incoming pair, and only then is g
overwritten, then r (the rebindings mirror the in-place mutations). -/
def updateBody {n : ℕ} {α : Type} [LinearOrderedField α] (p : Params α)
    (s : Grid n α × Grid n α) : Grid n α × Grid n α :=
  let g := s.1
  let r := s.2
  let lap_g := laplacian g
  let lap_r := laplacian r
  let gr2 : Grid n α := fun i j => p.eta * g i j * (r i j * r i j)
  let delta_g : Grid n α := fun i j =>
    (p.diffG * lap_g i j - gr2 i j + p.feed * (1 - g i j)) * p.dt
  let delta_r : Grid n α := fun i j =>
    (p.diffR * lap_r i j + gr2 i j - (p.feed + p.kill) * r i j) * p.dt
  let g2 : Grid n α := fun i j => g i j + delta_g i j
  let r2 : Grid n α := fun i j => r i j + delta_r i j
  (g2, r2)

/-- Modelled from the spec (section 4.4): scipy.ndimage.map_coordinates with
order=1 on a 2-d input - the library's code is not part of this repository.
For every destination cell, bilinearly interpolate z at the fractional source
coordinate (row, column) stored in the map, with source coordinates wrapped
periodically (the cast from ℤ to ZMod n). -/
def advect {n : ℕ} {α : Type} [LinearOrderedField α] [FloorRing α]
    (z : Grid n α) (coords : ZMod n → ZMod n → α × α) : Grid n α :=
  fun i j =>
    let ys := (coords i j).1
    let xs := (coords i j).2
    let i0 : ℤ := ⌊ys⌋
    let j0 : ℤ := ⌊xs⌋
    let fy := ys - (i0 : α)
    let fx := xs - (j0 : α)
    (1 - fy) * (1 - fx) * z ((i0 : ZMod n)) ((j0 : ZMod n))
      + (1 - fy) * fx * z ((i0 : ZMod n)) (((j0 + 1 : ℤ) : ZMod n))
      + fy * (1 - fx) * z (((i0 + 1 : ℤ) : ZMod n)) ((j0 : ZMod n))
      + fy * fx * z (((i0 + 1 : ℤ) : ZMod n)) (((j0 + 1 : ℤ) : ZMod n))

/-- Source function update (src/CMH.py lines 178-199): one tick.  If an
advection map is present, g is resampled through it and then r is (exactly
once, before the loop); then steps reaction sub-steps run (the source loops
range(STEPS_PER_FRAME)). -/
def update {n : ℕ} {α : Type} [LinearOrderedField α] [FloorRing α]
    (p : Params α) (steps : ℕ) (coords : Option (ZMod n → ZMod n → α × α))
    (g r : Grid n α) : Grid n α × Grid n α :=
  let g1 := match coords with
    | some c => advect g c
    | none => g
  let r1 := match coords with
    | some c => advect r c
    | none => r
  (updateBody p)^[steps] (g1, r1)

/-- Source function build_keplerian_coords (src/CMH.py lines 77-106), in
exact real arithmetic in place of float32.  meshgrid with indexing ij gives
y[i, j] = i and x[i, j] = j; the substitution r = 1 where r = 0 is the
source's masked assignment; the result stores per cell the fractional source
location (y_warp, x_warp), row coordinate first. -/
noncomputable def build_keplerian_coords (n : ℕ) (rotation_strength : ℝ) :
    ZMod n → ZMod n → ℝ × ℝ :=
  fun i j =>
    let center : ℝ := ((n / 2 : ℕ) : ℝ)
    let dx : ℝ := (j.val : ℝ) - center
    let dy : ℝ := (i.val : ℝ) - center
    let r0 : ℝ := Real.sqrt (dx * dx + dy * dy)
    let r : ℝ := if r0 = 0 then 1 else r0
    let theta : ℝ := rotation_strength * (1 / r)
    let cos_t : ℝ := Real.cos theta
    let sin_t : ℝ := Real.sin theta
    let x_warp : ℝ := dx * cos_t - dy * sin_t + center
    let y_warp : ℝ := dx * sin_t + dy * cos_t + center
    (y_warp, x_warp)

/-- Source function initialize_fields (src/CMH.py lines 109-130).  The random
array np.random.random((n, n)) is modelled as an explicit argument eta_noise
whose entries lie in [0, 1); the seed block is the python slice
slice(center - seed_radius, center + seed_radius) in both axes (the natural
subtraction agrees with the python bound whenever seed_radius ≤ center, which
the claims' precondition 2 * seed_radius < n guarantees). -/
def initialize_fields {α : Type} [LinearOrderedField α] (n : ℕ)
    (seed_radius : ℕ) (noise_level : α) (eta_noise : Grid n α) :
    Grid n α × Grid n α :=
  let center := n / 2
  let g : Grid n α := fun i j =>
    if (center - seed_radius ≤ i.val ∧ i.val < center + seed_radius) ∧
       (center - seed_radius ≤ j.val ∧ j.val < center + seed_radius)
    then 1 / 2 else 1
  let r : Grid n α := fun i j =>
    (if (center - seed_radius ≤ i.val ∧ i.val < center + seed_radius) ∧
        (center - seed_radius ≤ j.val ∧ j.val < center + seed_radius)
     then 1 / 4 else 0) + eta_noise i j * noise_level
  (g, r)

/-- The DFT phase factor exp(-2 pi I t / n).  numpy.fft.fft2 computes
F[k, l] as the sum over (x, y) of z[x, y] * exp(-2 pi I (k x + l y) / n);
the factor depends on its integer argument only modulo n, so the exponent
index is an element of ZMod n. -/
noncomputable def dftPhase (n : ℕ) (t : ZMod n) : ℂ :=
  Complex.exp (-(2 * (Real.pi : ℂ) * Complex.I) * (t.val : ℂ) / (n : ℂ))

/-- numpy.fft.fft2 on an n x n real field, modelled from the library's
documented definition (the library's code is not part of this repository). -/
noncomputable def fft2 {n : ℕ} [NeZero n] (z : Grid n ℝ) :
    ZMod n → ZMod n → ℂ :=
  fun k l => ∑ x : ZMod n, ∑ y : ZMod n, (z x y : ℂ) * dftPhase n (k * x + l * y)

/-- numpy.fft.fftshift on an n x n array: roll by n / 2 along both axes, so
the zero-frequency component of an fft2 output lands on the centre cell
(n / 2, n / 2). -/
def fftshift {n : ℕ} {β : Type} (f : ZMod n → ZMod n → β) :
    ZMod n → ZMod n → β :=
  fun u v => f (u - ((n / 2 : ℕ) : ZMod n)) (v - ((n / 2 : ℕ) : ZMod n))

/-- Source function get_power_spectrum (src/CMH.py lines 67-74): the
elementwise log of the magnitude of the shifted transform plus 1e-9. -/
noncomputable def get_power_spectrum {n : ℕ} [NeZero n] (z : Grid n ℝ) :
    ZMod n → ZMod n → ℝ :=
  fun u v =>
    Real.log (Complex.abs (fftshift (fft2 z) u v) + 1 / 1000000000)

/-- Stated from the spec (section 4.5), for comparison with updateBody: the
ReactionKernel deltas (delta_G, delta_R), both evaluated on the same
pre-update pair (g, r). -/
def reactionKernel {n : ℕ} {α : Type} [LinearOrderedField α] (p : Params α)
    (g r : Grid n α) : Grid n α × Grid n α :=
  (fun i j => (p.diffG * laplacian g i j - p.eta * g i j * r i j ^ 2
      + p.feed * (1 - g i j)) * p.dt,
   fun i j => (p.diffR * laplacian r i j + p.eta * g i j * r i j ^ 2
      - (p.feed + p.kill) * r i j) * p.dt)

/-- Stated from the spec (section 4.6, step 2): one fully synchronous
sub-step - both fields updated by the ReactionKernel deltas of the same
pre-update pair, with no overlap between sub-steps. -/
def substepSpec {n : ℕ} {α : Type} [LinearOrderedField α] (p : Params α)
    (s : Grid n α × Grid n α) : Grid n α × Grid n α :=
  (fun i j => s.1 i j + (reactionKernel p s.1 s.2).1 i j,
   fun i j => s.2 i j + (reactionKernel p s.1 s.2).2 i j)

/-- The pointwise reaction update at a cell whose whole five-point
neighbourhood holds the uniform pair (s.1, s.2): both Laplacians vanish
there, leaving the pure reaction terms of updateBody. -/
def scalarStep (p : Params ℚ) (s : ℚ × ℚ) : ℚ × ℚ :=
  (s.1 + (p.diffG * 0 - p.eta * s.1 * (s.2 * s.2) + p.feed * (1 - s.1)) * p.dt,
   s.2 + (p.diffR * 0 + p.eta * s.1 * (s.2 * s.2) - (p.feed + p.kill) * s.2) * p.dt)

/-- Total of a rational field over the whole grid. -/
def gridTotal {n : ℕ} [NeZero n] (z : Grid n ℚ) : ℚ :=
  ∑ i : ZMod n, ∑ j : ZMod n, z i j

/-!
Shaped-array model, for the shape-mismatch claim.  The Grid embedding above
assumes the well-formed case of two equal n x n fields; the source itself
performs no shape validation, so what happens on mismatched inputs is
whatever numpy and scipy do.  The definitions below model a 2-d numpy array
with its shape, numpy's documented broadcasting rule for elementwise binary
operations (dimensions must be equal or 1; a failure is the ValueError numpy
raises), numpy's in-place += (the right operand must broadcast to the
unchanged shape of the left), and scipy.ndimage.map_coordinates (the output
takes the shape of the coordinate arrays, and the input is sampled with
periodic wrap at whatever shape it has - no shape comparison ever happens).
-/

/-- A 2-d numpy array of rationals: a shape and a total indexing function
(only indices below the shape are meaningful). -/
structure NArr where
  rows : ℕ
  cols : ℕ
  data : ℕ → ℕ → ℚ

/-- numpy broadcast of one axis dimension: equal dimensions, or one of them
is 1; anything else is a ValueError. -/
def bdim (a b : ℕ) : Option ℕ :=
  if a = b then some a else if a = 1 then some b else if b = 1 then some a
  else none

/-- Elementwise binary operation under numpy broadcasting (an axis of
dimension 1 is read at index 0). -/
def broadcastWith (f : ℚ → ℚ → ℚ) (A B : NArr) : Option NArr :=
  match bdim A.rows B.rows, bdim A.cols B.cols with
  | some r, some c =>
      some ⟨r, c, fun i j =>
        f (A.data (if A.rows = 1 then 0 else i) (if A.cols = 1 then 0 else j))
          (B.data (if B.rows = 1 then 0 else i) (if B.cols = 1 then 0 else j))⟩
  | _, _ => none

/-- numpy in-place a += b: the result keeps the shape of a, and b must
broadcast to exactly that shape (numpy refuses to grow the output). -/
def inplaceAdd (A B : NArr) : Option NArr :=
  if (B.rows = A.rows ∨ B.rows = 1) ∧ (B.cols = A.cols ∨ B.cols = 1) then
    some ⟨A.rows, A.cols, fun i j =>
      A.data i j +
        B.data (if B.rows = 1 then 0 else i) (if B.cols = 1 then 0 else j)⟩
  else none

/-- Elementwise map (a scalar-array operation; never a shape fault). -/
def smap (f : ℚ → ℚ) (A : NArr) : NArr :=
  ⟨A.rows, A.cols, fun i j => f (A.data i j)⟩

/-- The five-point periodic Laplacian on a shaped array (each np.roll keeps
the array's own shape). -/
def laplacianN (A : NArr) : NArr :=
  ⟨A.rows, A.cols, fun i j =>
    A.data ((i + A.rows - 1) % A.rows) j + A.data ((i + 1) % A.rows) j
      + A.data i ((j + A.cols - 1) % A.cols) + A.data i ((j + 1) % A.cols)
      - 4 * A.data i j⟩

/-- Periodic wrap of an integer coordinate into an axis of length m. -/
def wrapIdx (m : ℕ) (t : ℤ) : ℕ := (t % (m : ℤ)).toNat

/-- scipy.ndimage.map_coordinates with order=1 on a shaped array: the output
has the shape of the coordinate arrays cy, cx, and the input A is sampled
bilinearly with periodic wrap at whatever shape A has; the input's shape is
never compared with the map's. -/
def advectN (cy cx : NArr) (A : NArr) : NArr :=
  ⟨cy.rows, cy.cols, fun i j =>
    let ys := cy.data i j
    let xs := cx.data i j
    let i0 : ℤ := ⌊ys⌋
    let j0 : ℤ := ⌊xs⌋
    let fy := ys - (i0 : ℚ)
    let fx := xs - (j0 : ℚ)
    (1 - fy) * (1 - fx) * A.data (wrapIdx A.rows i0) (wrapIdx A.cols j0)
      + (1 - fy) * fx * A.data (wrapIdx A.rows i0) (wrapIdx A.cols (j0 + 1))
      + fy * (1 - fx) * A.data (wrapIdx A.rows (i0 + 1)) (wrapIdx A.cols j0)
      + fy * fx * A.data (wrapIdx A.rows (i0 + 1)) (wrapIdx A.cols (j0 + 1))⟩

/-- One reaction sub-step on shaped arrays, mirroring the expression order of
src/CMH.py lines 188-199 with numpy's broadcasting at every elementwise
binary operation and numpy's in-place += for the two field updates. -/
def stepN (p : Params ℚ) (s : NArr × NArr) : Option (NArr × NArr) := do
  let g := s.1
  let r := s.2
  let lap_g := laplacianN g
  let lap_r := laplacianN r
  let rr ← broadcastWith (fun a b => a * b) r r
  let gr2a ← broadcastWith (fun a b => a * b) (smap (fun v => p.eta * v) g) rr
  let t1 ← broadcastWith (fun a b => a - b) (smap (fun v => p.diffG * v) lap_g) gr2a
  let t2 ← broadcastWith (fun a b => a + b) t1 (smap (fun v => p.feed * (1 - v)) g)
  let delta_g := smap (fun v => v * p.dt) t2
  let t3 ← broadcastWith (fun a b => a + b) (smap (fun v => p.diffR * v) lap_r) gr2a
  let t4 ← broadcastWith (fun a b => a - b) t3 (smap (fun v => (p.feed + p.kill) * v) r)
  let delta_r := smap (fun v => v * p.dt) t4
  let g2 ← inplaceAdd g delta_g
  let r2 ← inplaceAdd r delta_r
  pure (g2, r2)

/-- The sub-step loop on shaped arrays (a fault anywhere aborts the tick). -/
def loopN (p : Params ℚ) : ℕ → NArr × NArr → Option (NArr × NArr)
  | 0, s => some s
  | k + 1, s => (stepN p s).bind (loopN p k)

/-- One tick on shaped arrays: optional advection of both fields through the
map, then the sub-step loop (src/CMH.py lines 178-199 under the shaped
semantics). -/
def tickN (p : Params ℚ) (steps : ℕ) (coords : Option (NArr × NArr))
    (g r : NArr) : Option (NArr × NArr) :=
  let g1 := match coords with
    | some c => advectN c.1 c.2 g
    | none => g
  let r1 := match coords with
    | some c => advectN c.1 c.2 r
    | none => r
  loopN p steps (g1, r1)

/-- The identity advection map of size 2 - exactly what
build_keplerian_coords produces for n = 2 and rotation strength 0 (row
coordinates, then column coordinates). -/
def idRow2 : NArr := ⟨2, 2, fun i _ => (i : ℚ)⟩

/-- Column half of the identity advection map of size 2. -/
def idCol2 : NArr := ⟨2, 2, fun _ j => (j : ℚ)⟩

/-- A 1 x 1 field holding a single constant value. -/
def constArr1 (q : ℚ) : NArr := ⟨1, 1, fun _ _ => q⟩

/-- Concrete 5 x 5 field used to close universally quantified theorems. -/
def wGrid5a : Grid 5 ℚ := fun i j => ((i.val : ℚ) + (j.val : ℚ)) / 7

/-- A second concrete 5 x 5 field. -/
def wGrid5b : Grid 5 ℚ := fun _ _ => 1 / 3

/-- A concrete rational coordinate map on the 5 x 5 grid. -/
def wCoords5 : ZMod 5 → ZMod 5 → ℚ × ℚ :=
  fun i j => ((i.val : ℚ) + 1 / 2, (j.val : ℚ))

/-!  Theorems.  -/

/-- The imperative loop body of update coincides with the spec's synchronous
sub-step: both deltas are evaluated on the pre-update pair before either
field changes. -/
theorem updateBody_eq_substepSpec {n : ℕ} {α : Type} [LinearOrderedField α]
    (p : Params α) : (updateBody (n := n) (α := α) p) = substepSpec p := by
  funext s
  simp only [updateBody, substepSpec, reactionKernel]
  refine Prod.ext ?_ ?_ <;> funext i j <;> ring

/-- A tick without an advection map is exactly the iterated loop body. -/
theorem update_none_eq_iterate {n : ℕ} {α : Type} [LinearOrderedField α]
    [FloorRing α] (p : Params α) (steps : ℕ) (g r : Grid n α) :
    update p steps none g r = (updateBody p)^[steps] (g, r) := rfl

/-- The periodic Laplacian sums to zero over the grid: each rolled copy of z
sums to the same total as z itself. -/
theorem sum_laplacian_zero {n : ℕ} [NeZero n] (z : Grid n ℚ) :
    ∑ i : ZMod n, ∑ j : ZMod n, laplacian z i j = 0 := by
  have hrow : ∀ c : ZMod n, (∑ i : ZMod n, ∑ j : ZMod n, z (i - c) j)
      = ∑ i : ZMod n, ∑ j : ZMod n, z i j :=
    fun c => Equiv.sum_comp (Equiv.subRight c) (fun i => ∑ j : ZMod n, z i j)
  have hcol : ∀ c : ZMod n, (∑ i : ZMod n, ∑ j : ZMod n, z i (j - c))
      = ∑ i : ZMod n, ∑ j : ZMod n, z i j := by
    intro c
    refine Finset.sum_congr rfl fun i _ => ?_
    exact Equiv.sum_comp (Equiv.subRight c) (fun j => z i j)
  simp only [laplacian, rollRow, rollCol, Int.cast_one, Int.cast_neg]
  simp only [Finset.sum_add_distrib, Finset.sum_sub_distrib, ← Finset.mul_sum]
  rw [hrow 1, hrow (-1), hcol 1, hcol (-1)]
  ring

/-- C1: a tick advects at most once - exactly once, before all sub-steps,
when a map is present, and never when absent - and then performs exactly
steps synchronous reaction sub-steps, each computing gr2, delta_G and
delta_R by the ReactionKernel formulas from the same pre-update pair and
only then updating both fields, so no sub-step reads a half-updated
field. -/
theorem tick_advects_once_then_synchronous_substeps {n : ℕ} {α : Type}
    [LinearOrderedField α] [FloorRing α] (p : Params α) (steps : ℕ)
    (c : ZMod n → ZMod n → α × α) (g r : Grid n α) :
    update p steps (some c) g r
        = (substepSpec p)^[steps] (advect g c, advect r c)
      ∧ update p steps none g r = (substepSpec p)^[steps] (g, r) := by
  have h := updateBody_eq_substepSpec (n := n) (α := α) p
  constructor <;> simp [update, h]

/-- Closing the C1 theorem at a concrete instance. -/
theorem tick_advects_once_then_synchronous_substeps_witness :
    update defaultParams 2 (some wCoords5) wGrid5a wGrid5b
      = (substepSpec defaultParams)^[2]
          (advect wGrid5a wCoords5, advect wGrid5b wCoords5)
    ∧ update defaultParams 2 none wGrid5a wGrid5b
      = (substepSpec defaultParams)^[2] (wGrid5a, wGrid5b) :=
  tick_advects_once_then_synchronous_substeps defaultParams 2 wCoords5
    wGrid5a wGrid5b

/-- C7: the sum of the Laplacian of any field over the whole grid is exactly
zero in the rational embedding. -/
theorem sum_laplacian_eq_zero {n : ℕ} [NeZero n] (z : Grid n ℚ) :
    ∑ i : ZMod n, ∑ j : ZMod n, laplacian z i j = 0 :=
  sum_laplacian_zero z

/-- Closing the C7 theorem at a concrete field on the 3 x 3 grid. -/
theorem sum_laplacian_eq_zero_witness :
    ∑ i : ZMod 3, ∑ j : ZMod 3,
      laplacian (fun a b => ((a.val : ℚ) + 2 * (b.val : ℚ))) i j = 0 :=
  sum_laplacian_eq_zero (fun a b => ((a.val : ℚ) + 2 * (b.val : ℚ)))

/-- Wrapped predecessor: the cast of (m + n - 1) % n into ZMod n is m - 1. -/
theorem natCast_pred_mod {n : ℕ} [NeZero n] (m : ℕ) :
    (((m + n - 1) % n : ℕ) : ZMod n) = (m : ZMod n) - 1 := by
  have h1 : 1 ≤ n := Nat.one_le_iff_ne_zero.mpr (NeZero.ne n)
  rw [ZMod.natCast_mod, Nat.add_sub_assoc h1, Nat.cast_add, Nat.cast_sub h1,
    ZMod.natCast_self, Nat.cast_one]
  ring

/-- Wrapped successor: the cast of (m + 1) % n into ZMod n is m + 1. -/
theorem natCast_succ_mod {n : ℕ} (m : ℕ) :
    (((m + 1) % n : ℕ) : ZMod n) = (m : ZMod n) + 1 := by
  rw [ZMod.natCast_mod]
  push_cast
  ring

/-- C2: at every cell (i, j) of the grid, the Laplacian is the five-point
periodic stencil with all index arithmetic taken modulo n in both axes, the
four shifted terms read from the unmodified input field; in this functional
embedding the result is a fresh field and the input is never mutated. -/
theorem laplacian_is_periodic_stencil {n : ℕ} [NeZero n] {α : Type}
    [LinearOrderedField α] (z : Grid n α) (i j : ℕ)
    (_hi : i < n) (_hj : j < n) :
    laplacian z (i : ZMod n) (j : ZMod n)
      = z (((i + n - 1) % n : ℕ) : ZMod n) ((j : ZMod n))
        + z (((i + 1) % n : ℕ) : ZMod n) ((j : ZMod n))
        + z ((i : ZMod n)) (((j + n - 1) % n : ℕ) : ZMod n)
        + z ((i : ZMod n)) (((j + 1) % n : ℕ) : ZMod n)
        - 4 * z (i : ZMod n) (j : ZMod n) := by
  simp only [laplacian, rollRow, rollCol, Int.cast_one, Int.cast_neg,
    natCast_pred_mod, natCast_succ_mod, sub_neg_eq_add]

/-- Closing the C2 theorem at the edge cell (0, 4) of a 5 x 5 grid, where
both negative shifts wrap. -/
theorem laplacian_is_periodic_stencil_witness :
    (0 : ℕ) < 5 ∧ (4 : ℕ) < 5 ∧
    laplacian wGrid5a ((0 : ℕ) : ZMod 5) ((4 : ℕ) : ZMod 5)
      = wGrid5a ((((0 : ℕ) + 5 - 1) % 5 : ℕ) : ZMod 5) (((4 : ℕ) : ZMod 5))
        + wGrid5a ((((0 : ℕ) + 1) % 5 : ℕ) : ZMod 5) (((4 : ℕ) : ZMod 5))
        + wGrid5a (((0 : ℕ) : ZMod 5)) ((((4 : ℕ) + 5 - 1) % 5 : ℕ) : ZMod 5)
        + wGrid5a (((0 : ℕ) : ZMod 5)) ((((4 : ℕ) + 1) % 5 : ℕ) : ZMod 5)
        - 4 * wGrid5a ((0 : ℕ) : ZMod 5) ((4 : ℕ) : ZMod 5) :=
  ⟨by norm_num, by norm_num,
    laplacian_is_periodic_stencil wGrid5a 0 4 (by norm_num) (by norm_num)⟩

/-- With feed = kill = 0 and eta = 0 a single sub-step is pure diffusion and
preserves the combined grid total of the two fields. -/
theorem updateBody_total_invariant {n : ℕ} [NeZero n] (p : Params ℚ)
    (hf : p.feed = 0) (hk : p.kill = 0) (he : p.eta = 0)
    (s : Grid n ℚ × Grid n ℚ) :
    gridTotal (updateBody p s).1 + gridTotal (updateBody p s).2
      = gridTotal s.1 + gridTotal s.2 := by
  have hg : (updateBody p s).1
      = fun i j => s.1 i j + p.diffG * p.dt * laplacian s.1 i j := by
    funext i j
    simp only [updateBody, hf, hk, he]
    ring
  have hr : (updateBody p s).2
      = fun i j => s.2 i j + p.diffR * p.dt * laplacian s.2 i j := by
    funext i j
    simp only [updateBody, hf, hk, he]
    ring
  have key : ∀ (z : Grid n ℚ) (c : ℚ),
      gridTotal (fun i j => z i j + c * laplacian z i j) = gridTotal z := by
    intro z c
    unfold gridTotal
    simp only [Finset.sum_add_distrib, ← Finset.mul_sum]
    rw [sum_laplacian_zero z]
    ring
  rw [hg, hr, key s.1 (p.diffG * p.dt), key s.2 (p.diffR * p.dt)]

/-- The pure-diffusion total is preserved by any number of sub-steps. -/
theorem iterate_total_invariant {n : ℕ} [NeZero n] (p : Params ℚ)
    (hf : p.feed = 0) (hk : p.kill = 0) (he : p.eta = 0) (k : ℕ)
    (s : Grid n ℚ × Grid n ℚ) :
    gridTotal ((updateBody p)^[k] s).1 + gridTotal ((updateBody p)^[k] s).2
      = gridTotal s.1 + gridTotal s.2 := by
  induction k generalizing s with
  | zero => simp
  | succ k ih =>
      rw [Function.iterate_succ_apply]
      rw [ih (updateBody p s)]
      exact updateBody_total_invariant p hf hk he s

/-- C5: with feed = 0, kill = 0 and eta = 0, the grid total of G + R is
unchanged by a tick (advection disabled - pure diffusion), exactly in the
rational embedding. -/
theorem pure_diffusion_conserves_mass {n : ℕ} [NeZero n] (p : Params ℚ)
    (hf : p.feed = 0) (hk : p.kill = 0) (he : p.eta = 0)
    (steps : ℕ) (g r : Grid n ℚ) :
    gridTotal (update p steps none g r).1 + gridTotal (update p steps none g r).2
      = gridTotal g + gridTotal r := by
  rw [update_none_eq_iterate]
  exact iterate_total_invariant p hf hk he steps (g, r)

/-- Closing the C5 theorem: one tick of eight pure-diffusion sub-steps on a
concrete 5 x 5 state. -/
theorem pure_diffusion_conserves_mass_witness :
    gridTotal (update ⟨1, 16 / 100, 8 / 100, 0, 0, 0⟩ 8 none wGrid5a wGrid5b).1
        + gridTotal (update ⟨1, 16 / 100, 8 / 100, 0, 0, 0⟩ 8 none wGrid5a wGrid5b).2
      = gridTotal wGrid5a + gridTotal wGrid5b :=
  pure_diffusion_conserves_mass ⟨1, 16 / 100, 8 / 100, 0, 0, 0⟩ rfl rfl rfl 8
    wGrid5a wGrid5b

/-- Cast arithmetic: stepping one row down from an offset cell. -/
theorem offset_sub_one {n : ℕ} (c : ZMod n) (x : ℤ) :
    (c + ((x : ℤ) : ZMod n)) - 1 = c + (((x - 1 : ℤ)) : ZMod n) := by
  push_cast
  ring

/-- Cast arithmetic: stepping one row up from an offset cell. -/
theorem offset_add_one {n : ℕ} (c : ZMod n) (x : ℤ) :
    (c + ((x : ℤ) : ZMod n)) + 1 = c + (((x + 1 : ℤ)) : ZMod n) := by
  push_cast
  ring

/-- At a cell whose whole five-point neighbourhood holds the uniform pair
(a, b), one loop iteration produces exactly the pointwise scalarStep values:
both Laplacians vanish there. -/
theorem updateBody_uniform_nbhd {n : ℕ} (p : Params ℚ) (c : ZMod n)
    (g r : Grid n ℚ) (a b : ℚ) (u v : ℤ)
    (hg0 : g (c + (u : ZMod n)) (c + (v : ZMod n)) = a)
    (hg1 : g (c + ((u - 1 : ℤ) : ZMod n)) (c + (v : ZMod n)) = a)
    (hg2 : g (c + ((u + 1 : ℤ) : ZMod n)) (c + (v : ZMod n)) = a)
    (hg3 : g (c + (u : ZMod n)) (c + ((v - 1 : ℤ) : ZMod n)) = a)
    (hg4 : g (c + (u : ZMod n)) (c + ((v + 1 : ℤ) : ZMod n)) = a)
    (hr0 : r (c + (u : ZMod n)) (c + (v : ZMod n)) = b)
    (hr1 : r (c + ((u - 1 : ℤ) : ZMod n)) (c + (v : ZMod n)) = b)
    (hr2 : r (c + ((u + 1 : ℤ) : ZMod n)) (c + (v : ZMod n)) = b)
    (hr3 : r (c + (u : ZMod n)) (c + ((v - 1 : ℤ) : ZMod n)) = b)
    (hr4 : r (c + (u : ZMod n)) (c + ((v + 1 : ℤ) : ZMod n)) = b) :
    (updateBody p (g, r)).1 (c + (u : ZMod n)) (c + (v : ZMod n))
        = (scalarStep p (a, b)).1
      ∧ (updateBody p (g, r)).2 (c + (u : ZMod n)) (c + (v : ZMod n))
        = (scalarStep p (a, b)).2 := by
  have e1 := offset_sub_one c u
  have e2 := offset_add_one c u
  have e3 := offset_sub_one c v
  have e4 := offset_add_one c v
  constructor <;>
    · simp only [updateBody, laplacian, rollRow, rollCol, Int.cast_one,
        Int.cast_neg, sub_neg_eq_add, scalarStep, e1, e2, e3, e4,
        hg0, hg1, hg2, hg3, hg4, hr0, hr1, hr2, hr3, hr4]
      ring

/-- Local uniformity propagates through the sub-step loop: if both fields
hold the constant pair (a, b) on a box of radius M around a centre cell,
then after k sub-steps every cell of the box of radius M - k holds the
k-fold scalarStep image of (a, b). -/
theorem iterate_uniform_box {n : ℕ} (p : Params ℚ) (c : ZMod n) :
    ∀ (k : ℕ) (M : ℤ) (g r : Grid n ℚ) (a b : ℚ),
    (∀ x y : ℤ, |x| ≤ M → |y| ≤ M →
        g (c + (x : ZMod n)) (c + (y : ZMod n)) = a ∧
        r (c + (x : ZMod n)) (c + (y : ZMod n)) = b) →
    ∀ x y : ℤ, |x| + k ≤ M → |y| + k ≤ M →
      ((updateBody p)^[k] (g, r)).1 (c + (x : ZMod n)) (c + (y : ZMod n))
          = ((scalarStep p)^[k] (a, b)).1
        ∧ ((updateBody p)^[k] (g, r)).2 (c + (x : ZMod n)) (c + (y : ZMod n))
          = ((scalarStep p)^[k] (a, b)).2 := by
  intro k
  induction k with
  | zero =>
      intro M g r a b hunif x y hx hy
      simp only [Function.iterate_zero_apply]
      exact hunif x y (by simpa using hx) (by simpa using hy)
  | succ k ih =>
      intro M g r a b hunif x y hx hy
      rw [Function.iterate_succ_apply, Function.iterate_succ_apply]
      have hnew : ∀ u v : ℤ, |u| ≤ M - 1 → |v| ≤ M - 1 →
          (updateBody p (g, r)).1 (c + (u : ZMod n)) (c + (v : ZMod n))
              = (scalarStep p (a, b)).1 ∧
          (updateBody p (g, r)).2 (c + (u : ZMod n)) (c + (v : ZMod n))
              = (scalarStep p (a, b)).2 := by
        intro u v hu hv
        have h0 := hunif u v (by omega) (by omega)
        have h1 := hunif (u - 1) v (by rw [abs_le] at hu hv ⊢; omega)
          (by omega)
        have h2 := hunif (u + 1) v (by rw [abs_le] at hu hv ⊢; omega)
          (by omega)
        have h3 := hunif u (v - 1) (by omega)
          (by rw [abs_le] at hu hv ⊢; omega)
        have h4 := hunif u (v + 1) (by omega)
          (by rw [abs_le] at hu hv ⊢; omega)
        exact updateBody_uniform_nbhd p c g r a b u v h0.1 h1.1 h2.1 h3.1
          h4.1 h0.2 h1.2 h2.2 h3.2 h4.2
      have := ih (M - 1) (updateBody p (g, r)).1 (updateBody p (g, r)).2
        (scalarStep p (a, b)).1 (scalarStep p (a, b)).2 hnew x y
        (by push_cast at hx ⊢; omega) (by push_cast at hy ⊢; omega)
      exact this

/-- Value of an offset cell index around the centre of the 200 x 200 grid. -/
theorem val_offset_200 (t : ℤ) (h1 : -100 ≤ t) (h2 : t < 100) :
    ((100 : ZMod 200) + (t : ZMod 200)).val = (100 + t).toNat := by
  have e : (100 : ZMod 200) + (t : ZMod 200) = ((100 + t : ℤ) : ZMod 200) := by
    push_cast
    ring
  rw [e, show ((100 + t : ℤ)) = (((100 + t).toNat : ℕ) : ℤ) from
    (Int.toNat_of_nonneg (by omega)).symm, Int.cast_natCast, ZMod.val_natCast]
  exact Nat.mod_eq_of_lt (by omega)

/-- The deterministic initial state (noise_level = 0) is uniformly
(1/2, 1/4) on the box of radius 9 around the centre cell (100, 100): the
box lies inside the 20 x 20 seed block. -/
theorem initialize_uniform_box (eta_noise : Grid 200 ℚ) :
    ∀ x y : ℤ, |x| ≤ 9 → |y| ≤ 9 →
      (initialize_fields 200 10 0 eta_noise).1
          ((100 : ZMod 200) + (x : ZMod 200)) (100 + (y : ZMod 200)) = 1 / 2
      ∧ (initialize_fields 200 10 0 eta_noise).2
          ((100 : ZMod 200) + (x : ZMod 200)) (100 + (y : ZMod 200)) = 1 / 4 := by
  intro x y hx hy
  rw [abs_le] at hx hy
  have hxv := val_offset_200 x (by omega) (by omega)
  have hyv := val_offset_200 y (by omega) (by omega)
  constructor
  · simp only [initialize_fields]
    rw [if_pos]
    rw [hxv, hyv]
    constructor <;> constructor <;> omega
  · simp only [initialize_fields, mul_zero, add_zero]
    rw [if_pos]
    rw [hxv, hyv]
    constructor <;> constructor <;> omega

/-- Eight pure-reaction steps from (1/2, 1/4) bring the gas value strictly
below 1/2 (verified by exact rational evaluation). -/
theorem scalar_eight_steps_lt :
    ((scalarStep defaultParams)^[8] (1 / 2, 1 / 4)).1 < 1 / 2 := by
  with_unfolding_all decide

/-- C3: with the default parameters, advection disabled and the noise-free
initial state (noise_level = 0, any noise field), the gas value at the grid
centre cell (100, 100) starts at exactly 1/2 and is strictly below 1/2 after
one tick of STEPS_PER_FRAME = 8 reaction sub-steps: the centre sits at least
9 cells from the seed-block boundary, so for 8 sub-steps it evolves by the
uniform pointwise reaction law. -/
theorem center_gas_decreases_after_one_tick (eta_noise : Grid 200 ℚ) :
    (initialize_fields 200 10 0 eta_noise).1 100 100 = 1 / 2
    ∧ (update defaultParams STEPS_PER_FRAME none
        (initialize_fields 200 10 0 eta_noise).1
        (initialize_fields 200 10 0 eta_noise).2).1 100 100 < 1 / 2 := by
  have hcell : (100 : ZMod 200) + ((0 : ℤ) : ZMod 200) = 100 := by
    push_cast
    ring
  constructor
  · have h := (initialize_uniform_box eta_noise 0 0 (by norm_num)
      (by norm_num)).1
    rwa [hcell] at h
  · have key := (iterate_uniform_box defaultParams (100 : ZMod 200) 8 9
      (initialize_fields 200 10 0 eta_noise).1
      (initialize_fields 200 10 0 eta_noise).2 (1 / 2) (1 / 4)
      (initialize_uniform_box eta_noise) 0 0 (by norm_num) (by norm_num)).1
    rw [hcell] at key
    rw [update_none_eq_iterate]
    have hsteps : STEPS_PER_FRAME = 8 := rfl
    rw [hsteps, key]
    exact scalar_eight_steps_lt

/-- Closing the C3 theorem at the zero noise field. -/
theorem center_gas_decreases_after_one_tick_witness :
    (initialize_fields 200 10 0 ((fun _ _ => 0) : Grid 200 ℚ)).1 100 100 = 1 / 2
    ∧ (update defaultParams STEPS_PER_FRAME none
        (initialize_fields 200 10 0 ((fun _ _ => 0) : Grid 200 ℚ)).1
        (initialize_fields 200 10 0 ((fun _ _ => 0) : Grid 200 ℚ)).2).1 100 100 < 1 / 2 :=
  center_gas_decreases_after_one_tick ((fun _ _ => 0) : Grid 200 ℚ)

/-- C4: for 0 < 2 * seed_radius < n, a nonnegative noise level and a noise
field with entries in [0, 1), initialize_fields puts G at exactly 1/2 inside
the centred square block of side 2 * seed_radius and exactly 1 outside it,
and R at its seeded base (1/4 inside, 0 outside) plus the additive noise
term eta_noise * noise_level, which is nonnegative and, whenever
noise_level > 0, strictly below noise_level. -/
theorem initialize_fields_seed_and_noise {n seed_radius : ℕ}
    {noise_level : ℚ} (eta_noise : Grid n ℚ)
    (_hsr : 0 < 2 * seed_radius) (_hn : 2 * seed_radius < n)
    (hnl : 0 ≤ noise_level)
    (hnoise : ∀ i j : ZMod n, 0 ≤ eta_noise i j ∧ eta_noise i j < 1)
    (i j : ZMod n) :
    ((((n / 2 : ℕ) : ℤ) - seed_radius ≤ (i.val : ℤ)
        ∧ (i.val : ℤ) < ((n / 2 : ℕ) : ℤ) + seed_radius
        ∧ ((n / 2 : ℕ) : ℤ) - seed_radius ≤ (j.val : ℤ)
        ∧ (j.val : ℤ) < ((n / 2 : ℕ) : ℤ) + seed_radius) →
      (initialize_fields n seed_radius noise_level eta_noise).1 i j = 1 / 2
      ∧ (initialize_fields n seed_radius noise_level eta_noise).2 i j
          = 1 / 4 + eta_noise i j * noise_level)
    ∧ (¬ (((n / 2 : ℕ) : ℤ) - seed_radius ≤ (i.val : ℤ)
        ∧ (i.val : ℤ) < ((n / 2 : ℕ) : ℤ) + seed_radius
        ∧ ((n / 2 : ℕ) : ℤ) - seed_radius ≤ (j.val : ℤ)
        ∧ (j.val : ℤ) < ((n / 2 : ℕ) : ℤ) + seed_radius) →
      (initialize_fields n seed_radius noise_level eta_noise).1 i j = 1
      ∧ (initialize_fields n seed_radius noise_level eta_noise).2 i j
          = 0 + eta_noise i j * noise_level)
    ∧ 0 ≤ eta_noise i j * noise_level
    ∧ (0 < noise_level → eta_noise i j * noise_level < noise_level) := by
  refine ⟨?_, ?_, ?_, ?_⟩
  · intro h
    constructor
    · simp only [initialize_fields]
      rw [if_pos]
      omega
    · simp only [initialize_fields]
      rw [if_pos]
      omega
  · intro h
    constructor
    · simp only [initialize_fields]
      rw [if_neg]
      intro hc
      exact h (by omega)
    · simp only [initialize_fields]
      rw [if_neg]
      intro hc
      exact h (by omega)
  · exact mul_nonneg (hnoise i j).1 hnl
  · intro h0
    have h1 := mul_lt_mul_of_pos_right (hnoise i j).2 h0
    rwa [one_mul] at h1

/-- Closing the C4 theorem on a 5 x 5 grid with seed radius 1, noise level
1/2 and the constant noise field 1/3, at the centre cell (2, 2). -/
theorem initialize_fields_seed_and_noise_witness :
    ((((5 / 2 : ℕ) : ℤ) - 1 ≤ (((2 : ZMod 5)).val : ℤ)
        ∧ (((2 : ZMod 5)).val : ℤ) < ((5 / 2 : ℕ) : ℤ) + 1
        ∧ ((5 / 2 : ℕ) : ℤ) - 1 ≤ (((2 : ZMod 5)).val : ℤ)
        ∧ (((2 : ZMod 5)).val : ℤ) < ((5 / 2 : ℕ) : ℤ) + 1) →
      (initialize_fields 5 1 (1 / 2) wGrid5b).1 2 2 = 1 / 2
      ∧ (initialize_fields 5 1 (1 / 2) wGrid5b).2 2 2
          = 1 / 4 + wGrid5b 2 2 * (1 / 2))
    ∧ (¬ (((5 / 2 : ℕ) : ℤ) - 1 ≤ (((2 : ZMod 5)).val : ℤ)
        ∧ (((2 : ZMod 5)).val : ℤ) < ((5 / 2 : ℕ) : ℤ) + 1
        ∧ ((5 / 2 : ℕ) : ℤ) - 1 ≤ (((2 : ZMod 5)).val : ℤ)
        ∧ (((2 : ZMod 5)).val : ℤ) < ((5 / 2 : ℕ) : ℤ) + 1) →
      (initialize_fields 5 1 (1 / 2) wGrid5b).1 2 2 = 1
      ∧ (initialize_fields 5 1 (1 / 2) wGrid5b).2 2 2
          = 0 + wGrid5b 2 2 * (1 / 2))
    ∧ 0 ≤ wGrid5b 2 2 * (1 / 2)
    ∧ (0 < (1 / 2 : ℚ) → wGrid5b 2 2 * (1 / 2) < 1 / 2) :=
  initialize_fields_seed_and_noise wGrid5b (by norm_num) (by norm_num)
    (by norm_num)
    (fun i j => ⟨by norm_num [wGrid5b], by norm_num [wGrid5b]⟩) 2 2

/-- C6: with rotation_strength = 0 the angle is zero everywhere, so the
stored source coordinate of every cell is exactly the cell itself, and
advecting any field through this map returns the field unchanged (exactly so
in the real-arithmetic embedding: the interpolation weights collapse onto
the cell). -/
theorem rotation_zero_identity_map {n : ℕ} [NeZero n] (i j : ZMod n)
    (z : Grid n ℝ) :
    build_keplerian_coords n 0 i j = (((i.val : ℕ) : ℝ), ((j.val : ℕ) : ℝ))
    ∧ advect z (build_keplerian_coords n 0) i j = z i j := by
  have hmap : ∀ a b : ZMod n,
      build_keplerian_coords n 0 a b = (((a.val : ℕ) : ℝ), ((b.val : ℕ) : ℝ)) := by
    intro a b
    simp only [build_keplerian_coords, zero_mul, Real.cos_zero, Real.sin_zero]
    refine Prod.ext ?_ ?_ <;> dsimp <;> ring
  have hcast : ∀ a : ZMod n, (((a.val : ℕ) : ℤ) : ZMod n) = a := by
    intro a
    rw [Int.cast_natCast]
    exact ZMod.natCast_rightInverse a
  refine ⟨hmap i j, ?_⟩
  simp only [advect, hmap, Int.floor_natCast, Int.cast_natCast, sub_self,
    hcast]
  ring

/-- Closing the C6 theorem on the 4 x 4 grid at cell (1, 3). -/
theorem rotation_zero_identity_map_witness :
    build_keplerian_coords 4 0 1 3
        = (((((1 : ZMod 4)).val : ℕ) : ℝ), ((((3 : ZMod 4)).val : ℕ) : ℝ))
    ∧ advect ((fun a b => ((a.val : ℝ) + 2 * (b.val : ℝ))) : Grid 4 ℝ)
        (build_keplerian_coords 4 0) 1 3
      = ((fun a b => ((a.val : ℝ) + 2 * (b.val : ℝ))) : Grid 4 ℝ) 1 3 :=
  rotation_zero_identity_map 1 3
    ((fun a b => ((a.val : ℝ) + 2 * (b.val : ℝ))) : Grid 4 ℝ)

/-- Rotating a displacement (dx, dy) by any angle about a centre preserves
its squared distance from the centre. -/
theorem rotate_preserves_sq_norm (dx dy t c : ℝ) :
    ((dx * Real.cos t - dy * Real.sin t + c) - c) ^ 2
      + ((dx * Real.sin t + dy * Real.cos t + c) - c) ^ 2
      = dx ^ 2 + dy ^ 2 := by
  have h := Real.sin_sq_add_cos_sq t
  linear_combination (dx ^ 2 + dy ^ 2) * h

/-- C10: the stored fractional source coordinate of every cell lies at
exactly the same Euclidean distance from the centre (n / 2, n / 2) as the
cell itself - the warp is a pure rotation with no radial component - and the
centre cell's source coordinate is the centre itself. -/
theorem keplerian_map_preserves_radius {n : ℕ} (hn : 0 < n)
    (rotation_strength : ℝ) (i j : ZMod n) :
    Real.sqrt
        (((build_keplerian_coords n rotation_strength i j).2
            - ((n / 2 : ℕ) : ℝ)) ^ 2
          + ((build_keplerian_coords n rotation_strength i j).1
            - ((n / 2 : ℕ) : ℝ)) ^ 2)
      = Real.sqrt (((j.val : ℝ) - ((n / 2 : ℕ) : ℝ)) ^ 2
          + ((i.val : ℝ) - ((n / 2 : ℕ) : ℝ)) ^ 2)
    ∧ build_keplerian_coords n rotation_strength
        ((n / 2 : ℕ) : ZMod n) ((n / 2 : ℕ) : ZMod n)
      = (((n / 2 : ℕ) : ℝ), ((n / 2 : ℕ) : ℝ)) := by
  haveI : NeZero n := ⟨hn.ne'⟩
  constructor
  · simp only [build_keplerian_coords]
    exact congrArg Real.sqrt (rotate_preserves_sq_norm _ _ _ _)
  · have hval : (((n / 2 : ℕ) : ZMod n)).val = n / 2 := by
      rw [ZMod.val_natCast]
      exact Nat.mod_eq_of_lt (Nat.div_lt_self hn one_lt_two)
    simp only [build_keplerian_coords, hval, sub_self]
    norm_num

/-- Closing the C10 theorem on the 4 x 4 grid with rotation strength 7/10 at
cell (1, 2). -/
theorem keplerian_map_preserves_radius_witness :
    Real.sqrt
        (((build_keplerian_coords 4 (7 / 10) 1 2).2 - ((4 / 2 : ℕ) : ℝ)) ^ 2
          + ((build_keplerian_coords 4 (7 / 10) 1 2).1 - ((4 / 2 : ℕ) : ℝ)) ^ 2)
      = Real.sqrt (((((2 : ZMod 4)).val : ℝ) - ((4 / 2 : ℕ) : ℝ)) ^ 2
          + ((((1 : ZMod 4)).val : ℝ) - ((4 / 2 : ℕ) : ℝ)) ^ 2)
    ∧ build_keplerian_coords 4 (7 / 10) ((4 / 2 : ℕ) : ZMod 4)
        ((4 / 2 : ℕ) : ZMod 4)
      = (((4 / 2 : ℕ) : ℝ), ((4 / 2 : ℕ) : ℝ)) :=
  keplerian_map_preserves_radius (by norm_num) (7 / 10) 1 2

/-- Conjugation symmetry of the DFT phase: negating the index conjugates the
phase factor. -/
theorem dftPhase_neg {n : ℕ} [NeZero n] (t : ZMod n) :
    dftPhase n (-t) = (starRingEnd ℂ) (dftPhase n t) := by
  have hn : (n : ℂ) ≠ 0 := Nat.cast_ne_zero.mpr (NeZero.ne n)
  have hconj : (starRingEnd ℂ) (dftPhase n t)
      = Complex.exp ((2 * (Real.pi : ℂ) * Complex.I) * (t.val : ℂ) / (n : ℂ)) := by
    rw [dftPhase, ← Complex.exp_conj]
    congr 1
    simp only [map_div₀, map_mul, map_neg, map_ofNat, Complex.conj_I,
      Complex.conj_ofReal, map_natCast]
    ring
  rcases eq_or_ne t 0 with rfl | ht
  · rw [hconj]
    simp [dftPhase]
  · rw [hconj, dftPhase]
    have hval : (((-t).val : ℕ) : ℂ) = (n : ℂ) - (t.val : ℂ) := by
      rw [ZMod.neg_val, if_neg ht, Nat.cast_sub (le_of_lt (ZMod.val_lt t))]
    rw [hval]
    have h1 : -(2 * (Real.pi : ℂ) * Complex.I) * ((n : ℂ) - (t.val : ℂ)) / (n : ℂ)
        = -(2 * (Real.pi : ℂ) * Complex.I)
          + (2 * (Real.pi : ℂ) * Complex.I) * (t.val : ℂ) / (n : ℂ) := by
      field_simp
      ring
    rw [h1, Complex.exp_add, Complex.exp_neg, Complex.exp_two_pi_mul_I,
      inv_one, one_mul]

/-- The 2-d DFT of a real field at negated frequencies is the conjugate of
its value at the original frequencies. -/
theorem fft2_neg_neg {n : ℕ} [NeZero n] (z : Grid n ℝ) (k l : ZMod n) :
    fft2 z (-k) (-l) = (starRingEnd ℂ) (fft2 z k l) := by
  simp only [fft2, map_sum]
  refine Finset.sum_congr rfl fun x _ => ?_
  refine Finset.sum_congr rfl fun y _ => ?_
  rw [map_mul, Complex.conj_ofReal, ← dftPhase_neg]
  congr 1
  ring

/-- C8: the log-magnitude spectrum of a real field is symmetric under point
reflection through the zero-frequency centre cell (n / 2, n / 2): the value
at 2 * centre - cell equals the value at the cell. -/
theorem power_spectrum_point_symmetric {n : ℕ} [NeZero n] (z : Grid n ℝ)
    (u v : ZMod n) :
    get_power_spectrum z (2 * ((n / 2 : ℕ) : ZMod n) - u)
        (2 * ((n / 2 : ℕ) : ZMod n) - v)
      = get_power_spectrum z u v := by
  have e : ∀ w : ZMod n, 2 * ((n / 2 : ℕ) : ZMod n) - w - ((n / 2 : ℕ) : ZMod n)
      = -(w - ((n / 2 : ℕ) : ZMod n)) := by
    intro w
    ring
  simp only [get_power_spectrum, fftshift, e, fft2_neg_neg, Complex.abs_conj]

/-- Closing the C8 theorem on the 4 x 4 grid at cell (1, 3). -/
theorem power_spectrum_point_symmetric_witness :
    get_power_spectrum ((fun a b => ((a.val : ℝ) + 3 * (b.val : ℝ))) : Grid 4 ℝ)
        (2 * ((4 / 2 : ℕ) : ZMod 4) - 1) (2 * ((4 / 2 : ℕ) : ZMod 4) - 3)
      = get_power_spectrum
          ((fun a b => ((a.val : ℝ) + 3 * (b.val : ℝ))) : Grid 4 ℝ) 1 3 :=
  power_spectrum_point_symmetric
    ((fun a b => ((a.val : ℝ) + 3 * (b.val : ℝ))) : Grid 4 ℝ) 1 3

/-- C9 counterexample: a tick invoked with 1 x 1 fields but a 2 x 2
advection map does not fail at all - it silently returns fields resampled to
the map's 2 x 2 shape, so a shape mismatch between the fields and the map is
neither detected nor reported. -/
theorem shape_mismatch_silently_resamples_cex :
    (tickN defaultParams 8 (some (idRow2, idCol2))
        (constArr1 1) (constArr1 0)).map
        (fun s => (s.1.rows, s.1.cols, s.2.rows, s.2.cols))
      = some (2, 2, 2, 2) := rfl

/-- One sub-step on a pair of equal-shape fields always succeeds and
preserves the shape: every broadcast in the loop body is between arrays of
identical dimensions. -/
theorem stepN_same_shape (p : Params ℚ) (g r : NArr)
    (h1 : r.rows = g.rows) (h2 : r.cols = g.cols) :
    ∃ s2 : NArr × NArr, stepN p (g, r) = some s2
      ∧ s2.1.rows = g.rows ∧ s2.1.cols = g.cols
      ∧ s2.2.rows = g.rows ∧ s2.2.cols = g.cols := by
  simp [stepN, broadcastWith, bdim, inplaceAdd, smap, laplacianN, h1, h2]

/-- The sub-step loop on a pair of equal-shape fields always succeeds and
preserves the shape, for any number of sub-steps. -/
theorem loopN_same_shape (p : Params ℚ) :
    ∀ (k : ℕ) (g r : NArr), r.rows = g.rows → r.cols = g.cols →
    ∃ s2 : NArr × NArr, loopN p k (g, r) = some s2
      ∧ s2.1.rows = g.rows ∧ s2.1.cols = g.cols
      ∧ s2.2.rows = g.rows ∧ s2.2.cols = g.cols := by
  intro k
  induction k with
  | zero =>
      intro g r h1 h2
      exact ⟨(g, r), rfl, rfl, rfl, h1, h2⟩
  | succ k ih =>
      intro g r h1 h2
      obtain ⟨s1, hs1, e1, e2, e3, e4⟩ := stepN_same_shape p g r h1 h2
      obtain ⟨s2, hs2, f1, f2, f3, f4⟩ := ih s1.1 s1.2 (e3.trans e1.symm)
        (e4.trans e2.symm)
      refine ⟨s2, ?_, f1.trans e1, f2.trans e2, f3.trans e1, f4.trans e2⟩
      rw [loopN, hs1]
      simpa using hs2

/-- A broadcast between arrays whose dimensions are incompatible on either
axis is the ValueError. -/
theorem broadcastWith_none_of (f : ℚ → ℚ → ℚ) (A B : NArr)
    (hbad : bdim A.rows B.rows = none ∨ bdim A.cols B.cols = none) :
    broadcastWith f A B = none := by
  unfold broadcastWith
  rcases hbad with h | h
  · rw [h]
  · rw [h]
    cases bdim A.rows B.rows <;> rfl

/-- On a field pair whose shapes are not broadcast-compatible, the sub-step
faults at the coupling term gr2 = eta * g * (r * r), the first binary
operation that mixes the two fields. -/
theorem stepN_incompat (p : Params ℚ) (g r : NArr)
    (hbad : bdim g.rows r.rows = none ∨ bdim g.cols r.cols = none) :
    stepN p (g, r) = none := by
  have hrr : broadcastWith (fun a b => a * b) r r
      = some ⟨r.rows, r.cols, fun i j =>
          (r.data (if r.rows = 1 then 0 else i) (if r.cols = 1 then 0 else j))
          * (r.data (if r.rows = 1 then 0 else i)
              (if r.cols = 1 then 0 else j))⟩ := by
    simp [broadcastWith, bdim]
  have hg2 : broadcastWith (fun a b => a * b) (smap (fun v => p.eta * v) g)
      (⟨r.rows, r.cols, fun i j =>
          (r.data (if r.rows = 1 then 0 else i) (if r.cols = 1 then 0 else j))
          * (r.data (if r.rows = 1 then 0 else i)
              (if r.cols = 1 then 0 else j))⟩ : NArr)
      = none := by
    apply broadcastWith_none_of
    simpa [smap] using hbad
  simp [stepN, hrr, hg2]

/-- C9 amended: the tick performs no shape validation of its own.  A tick
given any advection map never faults, whatever the fields' shapes: both
fields are silently resampled (with wraparound) to the map's shape and every
later sub-step runs on that shape - so a map/field mismatch is neither
detected nor reported.  A tick without a map whose two fields have shapes
that are not numpy-broadcast-compatible faults when the coupling term of the
first sub-step is formed, for every positive number of sub-steps. -/
theorem shape_mismatch_behavior :
    (∀ (p : Params ℚ) (steps : ℕ) (cy cx g r : NArr),
      ∃ s2 : NArr × NArr, tickN p steps (some (cy, cx)) g r = some s2
        ∧ s2.1.rows = cy.rows ∧ s2.1.cols = cy.cols
        ∧ s2.2.rows = cy.rows ∧ s2.2.cols = cy.cols)
    ∧ ∀ (p : Params ℚ) (k : ℕ) (g r : NArr),
        (bdim g.rows r.rows = none ∨ bdim g.cols r.cols = none) →
        tickN p (k + 1) none g r = none := by
  constructor
  · intro p steps cy cx g r
    have h := loopN_same_shape p steps (advectN cy cx g) (advectN cy cx r)
      rfl rfl
    simpa [tickN, advectN] using h
  · intro p k g r hbad
    have h := stepN_incompat p g r hbad
    simp [tickN, loopN, h]

/-- Closing the amended C9 theorem: a 2 x 2 map over 1 x 1 fields ticks
successfully at the map's shape, and a (2 x 2, 3 x 3) field pair without a
map faults. -/
theorem shape_mismatch_behavior_witness :
    (∃ s2 : NArr × NArr,
      tickN defaultParams 8 (some (idRow2, idCol2))
          (constArr1 1) (constArr1 0) = some s2
        ∧ s2.1.rows = idRow2.rows ∧ s2.1.cols = idRow2.cols
        ∧ s2.2.rows = idRow2.rows ∧ s2.2.cols = idRow2.cols)
    ∧ tickN defaultParams (7 + 1) none (⟨2, 2, fun _ _ => 1⟩ : NArr)
        (⟨3, 3, fun _ _ => 0⟩ : NArr) = none :=
  ⟨shape_mismatch_behavior.1 defaultParams 8 idRow2 idCol2
      (constArr1 1) (constArr1 0),
   shape_mismatch_behavior.2 defaultParams 7 (⟨2, 2, fun _ _ => 1⟩ : NArr)
      (⟨3, 3, fun _ _ => 0⟩ : NArr) (Or.inl rfl)⟩
